import Mathlib

/-!
Verification of the cache-reconciliation and aggregation logic of
ghrepo-stats (src/ghrepo_stats/show_gh_stats.py).

The network layer, plotting and file I/O are external collaborators; the
reconcilers and aggregators are modelled as pure functions over the data
they consume: the cached record list, the remote record stream (the
`PaginatedList` with its `totalCount`), and the decoded cache file.
Timestamps are modelled as integers (seconds); Python's `datetime`
arithmetic (`timedelta.days`, `timedelta.seconds`, adding
`timedelta(days=7)`) is translated with floor division and Python-style
modulo (`Int.fdiv` / `Int.fmod`) on seconds.
-/

namespace GhStats

/-- A stargazer record as stored in the star cache and as delivered by the
remote stream: `{"starred_at": ..., "id": user.id}`
(`show_gh_stats.py`, lines 172-175). -/
structure StarRecord where
  starred_at : Int
  id : Nat
deriving DecidableEq, Repr

/-- Comparison key used by `results.sort(key=lambda s: s["starred_at"])`
(`show_gh_stats.py`, line 179). -/
def tsLe (a b : StarRecord) : Prop := a.starred_at ≤ b.starred_at

instance : DecidableRel tsLe := fun a b =>
  inferInstanceAs (Decidable (a.starred_at ≤ b.starred_at))

instance : IsTotal StarRecord tsLe := ⟨fun a b => Int.le_total a.starred_at b.starred_at⟩

instance : IsTrans StarRecord tsLe := ⟨fun _ _ _ h h' => le_trans h h'⟩

/-- The mutable state of the `for stargazer in stargazers` loop of
`GitHubStats.star_stats` (`show_gh_stats.py`, lines 144-175): the cached
list, the id list kept in lockstep with it, the collected new records, the
`cache_is_valid` flag, and (as instrumentation for the claims about scan
cost) the number of remote records consumed from the stream. -/
structure ReconState where
  cached : List StarRecord
  existing_ids : List Nat
  results : List StarRecord
  cache_is_valid : Bool
  consumed : Nat
deriving DecidableEq, Repr

/-- The inner removal-trimming `while` loop of `star_stats`
(`show_gh_stats.py`, lines 159-167):

    while cached and len(cached) > stargazers.totalCount - len(results):
        last_id = existing_ids.pop()
        cached.pop()
        if last_id == user_id:
            break
        if (len(cached) == stargazers.totalCount - len(results) and
                existing_ids[-1] == user_id):
            found_all = True
            break

`results` is not modified inside the loop, so
`stargazers.totalCount - len(results)` is passed as the constant
`expected`.  Every iteration pops exactly one element from the end of
`cached` (and of `existing_ids`, kept in lockstep), so the loop runs at
most `len(cached)` iterations; `fuel` is initialised to `cached.length`
by the caller and only bounds the recursion — the actual loop condition
is the guard below.  `existing_ids.pop()` and `existing_ids[-1]` are the
last elements of the lockstep id list; `star_stats` only enters the loop
after checking `user_id in existing_ids`, and an id is only popped
together with a `break` when it equals `user_id`, so the list is never
empty where Python reads it (the `getD 0` default is unreachable).
Returns the new `cached`, the new `existing_ids`, and `found_all`. -/
def trimLoop : Nat → List StarRecord → List Nat → Int → Nat →
    List StarRecord × List Nat × Bool
  | 0, cached, existing_ids, _, _ => (cached, existing_ids, false)
  | fuel + 1, cached, existing_ids, expected, user_id =>
    if cached ≠ [] ∧ expected < (cached.length : Int) then
      let last_id := existing_ids.getLast?.getD 0
      let cached' := cached.dropLast
      let existing' := existing_ids.dropLast
      if last_id = user_id then (cached', existing', false)
      else if (cached'.length : Int) = expected ∧ existing'.getLast? = some user_id then
        (cached', existing', true)
      else trimLoop fuel cached' existing' expected user_id
    else (cached, existing_ids, false)

/-- The `for stargazer in stargazers` loop of `star_stats`
(`show_gh_stats.py`, lines 148-175).  `stargazers` is the remote stream,
already reversed to most-recent-first order by the caller
(`get_stargazers_with_dates().reversed`); `totalCount` is its
`totalCount`.  For each record: if its user id is in `existing_ids` the
cache is declared valid and, when the cache is longer than
`totalCount - len(results)`, the trimming loop runs — a `found_all`
result breaks the outer loop, otherwise the record is appended to
`results` and the scan continues; when the lengths already agree the
loop breaks at once.  Records with unknown ids are appended to
`results`.  `consumed` counts the records read from the stream. -/
def starLoop (totalCount : Nat) : List StarRecord → ReconState → ReconState
  | [], st => st
  | sg :: rest, st =>
    let user_id := sg.id
    if user_id ∈ st.existing_ids then
      let st1 : ReconState :=
        { st with cache_is_valid := true, consumed := st.consumed + 1 }
      let expected : Int := (totalCount : Int) - (st1.results.length : Int)
      if expected < (st1.cached.length : Int) then
        let t := trimLoop st1.cached.length st1.cached st1.existing_ids expected user_id
        let st2 : ReconState := { st1 with cached := t.1, existing_ids := t.2.1 }
        if t.2.2 then st2
        else starLoop totalCount rest { st2 with results := st2.results ++ [sg] }
      else st1
    else
      starLoop totalCount rest
        { st with results := st.results ++ [sg], consumed := st.consumed + 1 }

/-- Result of one run of the star reconciler: the in-memory reconciled
list (`cached` after the merge, the data the series is built from), the
cache-file write (`some` written list iff `write_cache` was called), the
collected `results`, and the number of remote records consumed. -/
structure StarStatsResult where
  final : List StarRecord
  written : Option (List StarRecord)
  results : List StarRecord
  consumed : Nat
deriving DecidableEq, Repr

/-- The reconciliation part of `GitHubStats.star_stats`
(`show_gh_stats.py`, lines 141-181), as a function of the cached list,
the reversed remote stream and its total count:

    for stargazer in stargazers: ...            # starLoop
    if not cache_is_valid or len(cached) > stargazers.totalCount - len(results):
        cached.clear()
    if results:
        results.sort(key=lambda s: s["starred_at"])
        cached.extend(results)
        self.write_cache(cached, start, StatKind.Stars)

Python's `list.sort` is a stable sort by the given key; it is modelled by
`List.insertionSort tsLe`, which is likewise stable with respect to
`starred_at`. -/
def star_stats (cached₀ : List StarRecord) (stargazers : List StarRecord)
    (totalCount : Nat) : StarStatsResult :=
  let st₀ : ReconState := ⟨cached₀, cached₀.map (·.id), [], false, 0⟩
  let st := starLoop totalCount stargazers st₀
  let cached :=
    if st.cache_is_valid = false ∨
        (totalCount : Int) - (st.results.length : Int) < (st.cached.length : Int)
    then ([] : List StarRecord) else st.cached
  if st.results ≠ [] then
    let merged := cached ++ List.insertionSort tsLe st.results
    ⟨merged, some merged, st.results, st.consumed⟩
  else ⟨cached, none, st.results, st.consumed⟩

/-- An issue/PR record as stored in the issue cache
(`show_gh_stats.py`, lines 282-288). -/
structure IssueRecord where
  is_pr : Bool
  created_at : Int
  closed_at : Option Int
  number : Nat
  state : String
deriving DecidableEq, Repr

/-- Comparison key used by `cached.sort(key=lambda v: v["number"])`
(`show_gh_stats.py`, line 300). -/
def numberLe (a b : IssueRecord) : Prop := a.number ≤ b.number

instance : DecidableRel numberLe := fun a b =>
  inferInstanceAs (Decidable (a.number ≤ b.number))

instance : IsTotal IssueRecord numberLe := ⟨fun a b => Nat.le_total a.number b.number⟩

instance : IsTrans IssueRecord numberLe := ⟨fun _ _ _ h h' => le_trans h h'⟩

/-- The `for result in results` loop of `GitHubStats.collect_issues_or_prs`
(`show_gh_stats.py`, lines 281-295): every fetched record is appended to
`new_results`; a record whose number is at most `last_number` replaces a
stale cached copy, which is removed from `cached` (`cached.remove(c)`
removes the first entry with that number). -/
def issueLoop (last_number : Nat) :
    List IssueRecord → List IssueRecord → List IssueRecord →
    List IssueRecord × List IssueRecord
  | [], cached, new_results => (cached, new_results)
  | result :: rest, cached, new_results =>
    let new_results := new_results ++ [result]
    let cached :=
      if result.number ≤ last_number then
        cached.eraseP (fun c => c.number == result.number)
      else cached
    issueLoop last_number rest cached new_results

/-- Result of the issue/PR cache merge: the merged in-memory cache and the
cache-file write (`some` written list iff `write_cache` was called). -/
structure IssueMergeResult where
  cached : List IssueRecord
  written : Option (List IssueRecord)
deriving DecidableEq, Repr

/-- The cache-merge part of `GitHubStats.collect_issues_or_prs`
(`show_gh_stats.py`, lines 271-301), as a function of the cached list and
the fetched remote records:

    last_number = cached[-1]["number"] if cached else 0
    for result in results: ...                  # issueLoop
    if new_results:
        cached.extend(new_results)
        cached.sort(key=lambda v: v["number"])
        self.write_cache(cached, start, StatKind.Issues)

Python's stable `list.sort` by number is modelled by
`List.insertionSort numberLe`. -/
def issueMerge (cached₀ : List IssueRecord) (remote : List IssueRecord) :
    IssueMergeResult :=
  let last_number := (cached₀.getLast?.map (·.number)).getD 0
  let t := issueLoop last_number remote cached₀ []
  if t.2 ≠ [] then
    let merged := List.insertionSort numberLe (t.1 ++ t.2)
    ⟨merged, some merged⟩
  else ⟨t.1, none⟩

/-- The output-view loop of `GitHubStats.collect_issues_or_prs`
(`show_gh_stats.py`, lines 303-319): records of the non-requested kind
are skipped (`if collect_issues == issue["is_pr"]: continue`), closed
records are skipped when
`open_time.days == 0 and open_time.seconds < 60` where
`open_time = closed_at - created_at` — a Python `timedelta` has
`days = floor(total / 86400)` and `seconds = total - days * 86400`,
i.e. `Int.fdiv` / `Int.fmod` on the difference in seconds; every other
record yields an `Issue(opened=created_at, closed=closed_at)` pair. -/
def issueView (collect_issues : Bool) : List IssueRecord → List (Int × Option Int)
  | [] => []
  | issue :: rest =>
    if collect_issues = issue.is_pr then issueView collect_issues rest
    else
      match issue.closed_at with
      | some closed =>
        let open_time := closed - issue.created_at
        if open_time.fdiv 86400 = 0 ∧ open_time.fmod 86400 < 60 then
          issueView collect_issues rest
        else (issue.created_at, issue.closed_at) :: issueView collect_issues rest
      | none => (issue.created_at, issue.closed_at) :: issueView collect_issues rest

/-- The event multiset built by `GitHubStats.issue_pr_stats`
(`show_gh_stats.py`, lines 122-126): per issue a `(opened, 1)` event,
followed by a `(closed, -1)` event when the issue is closed. -/
def eventList : List (Int × Option Int) → List (Int × Int)
  | [] => []
  | (opened, closed) :: rest =>
    (opened, 1) ::
      ((match closed with | some c => [(c, -1)] | none => []) ++ eventList rest)

/-- Python tuple comparison on `(timestamp, diff)` pairs, as used by
`times = sorted(times)` (`show_gh_stats.py`, line 128): lexicographic —
first the timestamp, ties broken by the `±1` diff. -/
def pairLe (a b : Int × Int) : Prop := a.1 < b.1 ∨ (a.1 = b.1 ∧ a.2 ≤ b.2)

instance : DecidableRel pairLe := fun a b =>
  inferInstanceAs (Decidable (a.1 < b.1 ∨ (a.1 = b.1 ∧ a.2 ≤ b.2)))

instance : IsTotal (Int × Int) pairLe := ⟨by
  intro a b
  rcases lt_trichotomy a.1 b.1 with h | h | h
  · exact Or.inl (Or.inl h)
  · rcases le_total a.2 b.2 with h' | h'
    · exact Or.inl (Or.inr ⟨h, h'⟩)
    · exact Or.inr (Or.inr ⟨h.symm, h'⟩)
  · exact Or.inr (Or.inl h)⟩

instance : IsTrans (Int × Int) pairLe := ⟨by
  rintro a b c (h | ⟨h, h'⟩) (g | ⟨g, g'⟩)
  · exact Or.inl (h.trans g)
  · exact Or.inl (g ▸ h)
  · exact Or.inl (h ▸ g)
  · exact Or.inr ⟨h.trans g, h'.trans g'⟩⟩

/-- The prefix-sum loop of `issue_pr_stats` (`show_gh_stats.py`,
lines 131-135), producing the `(timestamp, cumulative_count)` pairs
that `handle_output` zips into the csv rows. -/
def prefixSeries : List (Int × Int) → Int → List (Int × Int)
  | [], _ => []
  | (t, diff) :: rest, nr => (t, nr + diff) :: prefixSeries rest (nr + diff)

/-- The open-count series computed by `issue_pr_stats`
(`show_gh_stats.py`, lines 120-139): build the event list, sort it with
Python's `sorted` — a stable sort under lexicographic tuple comparison,
modelled by the stable `List.insertionSort pairLe` — and prefix-sum. -/
def openCountSeries (issues : List (Int × Option Int)) : List (Int × Int) :=
  prefixSeries (List.insertionSort pairLe (eventList issues)) 0

/-- Modelled from the spec, for comparison with `openCountSeries` (claim
C5): the same series but with the events ordered by a stable sort on the
timestamp alone, so that events with equal timestamps keep their
insertion order — `List.insertionSort` on the timestamp-only key is such
a stable sort. -/
def specStableSeries (issues : List (Int × Option Int)) : List (Int × Int) :=
  prefixSeries (List.insertionSort (fun a b : Int × Int => a.1 ≤ b.1) (eventList issues)) 0

/-- A decoded cache-file timestamp: Python `datetime.fromisoformat`
yields a `datetime` whose `tzinfo` may be absent (`hasTz = false`). -/
structure PyDateTime where
  seconds : Int
  hasTz : Bool
deriving DecidableEq, Repr

/-- A decoded cache file: `{"since": ..., "data": [...]}`
(`show_gh_stats.py`, lines 392-395). -/
structure CacheFile (α : Type) where
  since : Option PyDateTime
  data : List α
deriving DecidableEq, Repr

/-- `GitHubStats.cached_result` (`show_gh_stats.py`, lines 373-387) on
the decoded file contents (`none` models a missing cache file).
`timestampField` selects the per-kind timestamp field checked for
timezone information: `created_at` for `StatKind.Issues`, `starred_at`
for `StatKind.Stars`.  Only `data[0]` is inspected; a first record whose
timestamp lacks timezone information makes the whole cache be ignored
(`return [], None`) without raising. -/
def cached_result {α : Type} (timestampField : α → PyDateTime) :
    Option (CacheFile α) → List α × Option PyDateTime
  | none => ([], none)
  | some cached =>
    match cached.data with
    | [] => (cached.data, cached.since)
    | first_item :: _ =>
      if (timestampField first_item).hasTz = false then ([], none)
      else (cached.data, cached.since)

/-- A star cache record as decoded from the cache file, for claim C9:
`starred_at` is the timestamp checked for timezone information. -/
structure CachedStar where
  starred_at : PyDateTime
  id : Nat
deriving DecidableEq, Repr

/-- A weekly slot of `GitHubStats.issue_pr_lifetime`
(`show_gh_stats.py`, line 239): `{"time": slot_time, "nr": 0, "days": 0}`. -/
structure Slot where
  time : Int
  nr : Nat
  days : Int
deriving DecidableEq, Repr

/-- Python list index resolution: a non-negative index is used directly,
a negative index counts from the end; out-of-range yields `none`
(an `IndexError` in Python). -/
def pyIdx (len : Nat) (i : Int) : Option Nat :=
  if 0 ≤ i then (if i < (len : Int) then some i.toNat else none)
  else if 0 ≤ i + (len : Int) then some (i + (len : Int)).toNat else none

/-- Read `slots[i]` with Python index semantics.  The out-of-range case
returns a zero slot; in Python it raises `IndexError` — it is unreachable
under the preconditions of the lifetime claims, where all indices are
non-negative and guarded by `index < slot_len`. -/
def pyGet (slots : List Slot) (i : Int) : Slot :=
  match pyIdx slots.length i with
  | some n => slots.getD n ⟨0, 0, 0⟩
  | none => ⟨0, 0, 0⟩

/-- Write `slots[i]` with Python index semantics (out of range: no-op,
unreachable as for `pyGet`). -/
def pySet (slots : List Slot) (i : Int) (s : Slot) : List Slot :=
  match pyIdx slots.length i with
  | some n => slots.set n s
  | none => slots

/-- The slot-creation loop of `issue_pr_lifetime` (`show_gh_stats.py`,
lines 237-240): one slot per 7 days (`timedelta(days=7)` = 604800
seconds) from `start_time` while `slot_time < now`. -/
def makeSlots (slot_time now : Int) : List Slot :=
  if h : slot_time < now then
    ⟨slot_time, 0, 0⟩ :: makeSlots (slot_time + 7 * 86400) now
  else []
termination_by (now - slot_time).toNat
decreasing_by
  all_goals (simp_wf; omega)

/-- The first inner `while` loop of `issue_pr_lifetime`
(`show_gh_stats.py`, lines 249-253): while the slot exists and starts
before `end_time`, add the growing lifetime and count the issue, stepping
`days` by 7 and `index` by 1.  Returns the updated slots and the final
`index` (the loop's `days` is overwritten afterwards, line 254). -/
def lifeLoop1 (slots : List Slot) (slot_len : Nat) (end_time : Int)
    (index : Int) (days : Int) : List Slot × Int :=
  if h : index < (slot_len : Int) ∧ (pyGet slots index).time < end_time then
    lifeLoop1 (pySet slots index
        { pyGet slots index with
            days := (pyGet slots index).days + days,
            nr := (pyGet slots index).nr + 1 })
      slot_len end_time (index + 1) (days + 7)
  else (slots, index)
termination_by ((slot_len : Int) - index).toNat
decreasing_by
  all_goals (simp_wf; omega)

/-- The second inner `while` loop of `issue_pr_lifetime`
(`show_gh_stats.py`, lines 256-259): add the final duration and count the
issue in every remaining slot. -/
def lifeLoop2 (slots : List Slot) (slot_len : Nat) (index : Int)
    (days : Int) : List Slot :=
  if h : index < (slot_len : Int) then
    lifeLoop2 (pySet slots index
        { pyGet slots index with
            days := (pyGet slots index).days + days,
            nr := (pyGet slots index).nr + 1 })
      slot_len (index + 1) days
  else slots
termination_by ((slot_len : Int) - index).toNat
decreasing_by
  all_goals (simp_wf; omega)

/-- The per-issue body of the `for issue in issues` loop of
`issue_pr_lifetime` (`show_gh_stats.py`, lines 243-259).
`(a - b).days` of a `timedelta` is `Int.fdiv (a - b) 86400`; Python `//`
and `%` are `Int.fdiv` and `Int.fmod`. -/
def processIssue (slot_len : Nat) (start_time now : Int) (slots : List Slot)
    (issue : Int × Option Int) : List Slot :=
  let days_from_start := (issue.1 - start_time).fdiv 86400
  let index := days_from_start.fdiv 7
  let days := 7 - days_from_start.fmod 7
  let end_time := issue.2.getD now
  let t := lifeLoop1 slots slot_len end_time index days
  let days := (end_time - issue.1).fdiv 86400
  lifeLoop2 t.1 slot_len t.2 days

/-- The filled weekly slots of `issue_pr_lifetime` (`show_gh_stats.py`,
lines 231-259) for a given issue list (as `(opened, closed)` pairs) and
`now`: slots from the first issue's opened time, then every issue
processed in order.  The final per-slot outputs are
`slot["days"] // slot["nr"]` (line 264) — claim C7 is that `nr` is never
zero there. -/
def lifetimeSlots (issues : List (Int × Option Int)) (now : Int) : List Slot :=
  match issues with
  | [] => []
  | first :: _ =>
    let start_time := first.1
    let slots := makeSlots start_time now
    issues.foldl (processIssue slots.length start_time now) slots

/-! ## Claim C1 -/

/-- Claim C1: for the star reconciler with cached ascending list
`[(starred_at=1, id=11), (starred_at=2, id=12)]` (day 1 = id A = 11,
day 2 = id B = 12) and remote descending stream
`[(3, 13), (2, 12), (1, 11)]` with `total_count = 3`, reconciliation
appends exactly the one record `(3, 13)` (= C), the final list is the
ascending `[A, B, C]` (also written to the cache), and exactly 2 remote
records are consumed before the scan stops (C is new, B matches the
cache and the lengths agree). -/
theorem c1_concrete_star_scenario :
    star_stats [⟨1, 11⟩, ⟨2, 12⟩] [⟨3, 13⟩, ⟨2, 12⟩, ⟨1, 11⟩] 3 =
      ⟨[⟨1, 11⟩, ⟨2, 12⟩, ⟨3, 13⟩], some [⟨1, 11⟩, ⟨2, 12⟩, ⟨3, 13⟩],
        [⟨3, 13⟩], 2⟩ := by
  decide

/-! ## Claim C2 -/

/-- Claim C2 counterexample: a run whose only effect is trimming removed
stars does NOT rewrite the cache file.  Cache `[(1, 11), (2, 12)]`,
remote stream `[(1, 11)]` with `total_count = 1` (the last star was
removed): the reconciler trims `(2, 12)` — the reconciled list `[(1, 11)]`
differs from the cached input — yet `write_cache` is never called
(`written = none`), because the write is guarded by `if results:` alone
(`show_gh_stats.py`, lines 178-181). -/
theorem c2_counterexample :
    (star_stats [⟨1, 11⟩, ⟨2, 12⟩] [⟨1, 11⟩] 1).written = none ∧
    (star_stats [⟨1, 11⟩, ⟨2, 12⟩] [⟨1, 11⟩] 1).final = [⟨1, 11⟩] ∧
    (star_stats [⟨1, 11⟩, ⟨2, 12⟩] [⟨1, 11⟩] 1).final ≠ [⟨1, 11⟩, ⟨2, 12⟩] := by
  decide

/-- Claim C2 as amended: the star cache is rewritten to durable storage
if and only if reconciliation collected at least one record from the
remote stream (`results` non-empty); a run whose only effect is trimming
removed stars does not rewrite the cache file.  When a write happens, the
written list is exactly the reconciled in-memory list. -/
theorem c2_star_persist_iff_collected (cached₀ stream : List StarRecord)
    (total : Nat) :
    ((star_stats cached₀ stream total).written = none ↔
      (star_stats cached₀ stream total).results = []) ∧
    ((star_stats cached₀ stream total).written = none ∨
      (star_stats cached₀ stream total).written =
        some (star_stats cached₀ stream total).final) := by
  unfold star_stats
  by_cases h : (starLoop total stream ⟨cached₀, cached₀.map (·.id), [], false, 0⟩).results = [] <;>
    simp [h]

/-- Witness for claim C2's amended theorem at the counterexample input
(no record collected, hence no write) and at the C1-style input (one
record collected, hence a write of the final list). -/
theorem c2_witness :
    (star_stats [⟨1, 11⟩, ⟨2, 12⟩] [⟨1, 11⟩] 1).written = none ∧
    (star_stats [⟨5, 21⟩] [⟨6, 22⟩, ⟨5, 21⟩] 2).written =
      some (star_stats [⟨5, 21⟩] [⟨6, 22⟩, ⟨5, 21⟩] 2).final := by
  constructor
  · exact (c2_star_persist_iff_collected [⟨1, 11⟩, ⟨2, 12⟩] [⟨1, 11⟩] 1).1.mpr
      (by decide)
  · rcases (c2_star_persist_iff_collected [⟨5, 21⟩] [⟨6, 22⟩, ⟨5, 21⟩] 2).2 with h | h
    · exact absurd ((c2_star_persist_iff_collected [⟨5, 21⟩]
        [⟨6, 22⟩, ⟨5, 21⟩] 2).1.mp h) (by decide)
    · exact h

/-! ## Claim C9 -/

/-- Claim C9 counterexample: `cached_result` checks the timezone only on
the FIRST record of the cached data.  A cache file whose data contains a
record lacking timezone information (here the second record) is returned
in full with its watermark, not invalidated to `([], none)`. -/
theorem c9_counterexample :
    cached_result CachedStar.starred_at
        (some ⟨some ⟨5, true⟩, [⟨⟨0, true⟩, 1⟩, ⟨⟨1, false⟩, 2⟩]⟩) =
      ([⟨⟨0, true⟩, 1⟩, ⟨⟨1, false⟩, 2⟩], some ⟨5, true⟩) ∧
    (([⟨⟨0, true⟩, 1⟩, ⟨⟨1, false⟩, 2⟩] : List CachedStar).any
        (fun r => !r.starred_at.hasTz)) = true ∧
    cached_result CachedStar.starred_at
        (some ⟨some ⟨5, true⟩, [⟨⟨0, true⟩, 1⟩, ⟨⟨1, false⟩, 2⟩]⟩) ≠
      (([] : List CachedStar), none) := by
  decide

/-- Claim C9 as amended: when reading a cache file whose FIRST data
record carries a timestamp without timezone information (`created_at`
for issues, `starred_at` for stars — the field is abstracted as
`timestampField`), the cache read returns an empty record list and a
null watermark — a full cache invalidation — silently, without raising
(`cached_result` is a total function). -/
theorem c9_first_record_tz_invalidation {α : Type} (timestampField : α → PyDateTime)
    (file : CacheFile α) (r : α) (rest : List α)
    (hdata : file.data = r :: rest) (htz : (timestampField r).hasTz = false) :
    cached_result timestampField (some file) = ([], none) := by
  have hstep : cached_result timestampField (some file) =
      (match file.data with
       | [] => (file.data, file.since)
       | first_item :: _ =>
         if (timestampField first_item).hasTz = false then ([], none)
         else (file.data, file.since)) := rfl
  rw [hstep, hdata]
  simp [htz]

/-- Witness for claim C9's theorem at a concrete one-record cache file. -/
theorem c9_witness :
    cached_result CachedStar.starred_at
        (some ⟨some ⟨3, true⟩, [⟨⟨0, false⟩, 7⟩]⟩) = ([], none) :=
  c9_first_record_tz_invalidation CachedStar.starred_at
    ⟨some ⟨3, true⟩, [⟨⟨0, false⟩, 7⟩]⟩ ⟨⟨0, false⟩, 7⟩ [] rfl rfl

/-! ## Claim C5 -/

/-- Claim C5 counterexample: the open-count series is NOT computed with a
stable sort on the timestamp alone.  Python's `sorted(times)` compares
the `(timestamp, diff)` tuples lexicographically, so at equal timestamps
a `-1` event sorts before a `+1` event regardless of insertion order.
For records `[(opened=1, closed=None), (opened=2, closed=2)]` the events
are inserted as `[(1,+1), (2,+1), (2,-1)]`; a stable timestamp-only sort
would keep `(2,+1)` before `(2,-1)` and give `[(1,1), (2,2), (2,1)]`,
but the code gives `[(1,1), (2,0), (2,1)]`. -/
theorem c5_counterexample :
    openCountSeries [(1, none), (2, some 2)] = [(1, 1), (2, 0), (2, 1)] ∧
    specStableSeries [(1, none), (2, some 2)] = [(1, 1), (2, 2), (2, 1)] ∧
    openCountSeries [(1, none), (2, some 2)] ≠
      specStableSeries [(1, none), (2, some 2)] := by
  decide

/-- Claim C5 as amended: the open-count series emits a `+1` event per
opened timestamp and a `-1` event per present closed timestamp, sorts
the events by Python tuple comparison — by timestamp ascending with ties
broken by the diff, so `-1` events precede `+1` events at equal
timestamps — and takes a prefix sum, producing one
`(timestamp, cumulative_count)` pair per event with duplicate timestamps
preserved.  For records
`[(opened=D1, closed=None), (opened=D2, closed=D4), (opened=D3, closed=None)]`
with `D1 < D2 < D3 < D4` (no ties, where the two orders agree) the series
is `[(D1,1), (D2,2), (D3,3), (D4,2)]`. -/
theorem c5_open_count_series (D1 D2 D3 D4 : Int)
    (h12 : D1 < D2) (h23 : D2 < D3) (h34 : D3 < D4) :
    openCountSeries [(D1, none), (D2, some D4), (D3, none)] =
      [(D1, 1), (D2, 2), (D3, 3), (D4, 2)] ∧
    ∀ issues : List (Int × Option Int),
      (openCountSeries issues).length = (eventList issues).length := by
  constructor
  · have hn : ¬ pairLe (D4, -1) (D3, 1) := by
      simp only [pairLe]
      push_neg
      exact ⟨by omega, fun h => by omega⟩
    have hp1 : pairLe (D2, 1) (D3, 1) := Or.inl h23
    have hp2 : pairLe (D1, 1) (D2, 1) := Or.inl h12
    show prefixSeries
        (List.insertionSort pairLe [(D1, 1), (D2, 1), (D4, -1), (D3, 1)]) 0 = _
    simp only [List.insertionSort, List.orderedInsert, if_neg hn, if_pos hp1,
      if_pos hp2]
    norm_num [prefixSeries]
  · intro issues
    unfold openCountSeries
    rw [length_prefixSeries, (List.perm_insertionSort pairLe _).length_eq]
where
  length_prefixSeries : ∀ (l : List (Int × Int)) (nr : Int),
      (prefixSeries l nr).length = l.length
    | [], _ => rfl
    | (_, _) :: rest, nr => by
      simp [prefixSeries, length_prefixSeries rest]

/-- Witness for claim C5's theorem at `D1, D2, D3, D4 = 1, 2, 3, 4`. -/
theorem c5_witness :
    openCountSeries [((1 : Int), none), (2, some 4), (3, none)] =
      [(1, 1), (2, 2), (3, 3), (4, 2)] :=
  (c5_open_count_series 1 2 3 4 (by decide) (by decide) (by decide)).1

/-! ## Claim C6 -/

/-- The record-selection predicate of claim C6: the record is of the
requested kind (`is_pr` differs from `collect_issues`, which selects
issues when true) and, when closed, lived at least 60 seconds. -/
def keepsRecord (collect_issues : Bool) (r : IssueRecord) : Bool :=
  r.is_pr != collect_issues &&
    (match r.closed_at with
     | some cl => decide (60 ≤ cl - r.created_at)
     | none => true)

/-- For a non-negative duration, Python's
`open_time.days == 0 and open_time.seconds < 60` is exactly
"strictly under 60 seconds". -/
theorem timedelta_under60_iff (d : Int) (h : 0 ≤ d) :
    (d.fdiv 86400 = 0 ∧ d.fmod 86400 < 60) ↔ d < 60 := by
  rw [Int.fdiv_eq_ediv _ (by norm_num), Int.fmod_eq_emod _ (by norm_num)]
  omega

/-- Claim C6: the issue/PR output view excludes exactly the records of
the non-requested kind and the records closed strictly less than 60
seconds after creation; every other cached record appears (in order),
as its `(created_at, closed_at)` pair.  Precondition: `closed_at`, when
present, is at least `created_at`. -/
theorem c6_view_filter (collect_issues : Bool) (cached : List IssueRecord)
    (hord : ∀ r ∈ cached, ∀ cl, r.closed_at = some cl → r.created_at ≤ cl) :
    issueView collect_issues cached =
      (cached.filter (keepsRecord collect_issues)).map
        (fun r => (r.created_at, r.closed_at)) := by
  induction cached with
  | nil => rfl
  | cons issue rest ih =>
    have hres := ih (fun r hr => hord r (List.mem_cons_of_mem _ hr))
    by_cases hpr : collect_issues = issue.is_pr
    · have hk : keepsRecord collect_issues issue = false := by
        simp [keepsRecord, hpr]
      simp only [issueView, if_pos hpr, List.filter_cons, hk]
      exact hres
    · have hne : (issue.is_pr != collect_issues) = true := by
        simp [bne_iff_ne]
        exact fun h => hpr h.symm
      match hcl : issue.closed_at with
      | none =>
        have hk : keepsRecord collect_issues issue = true := by
          simp [keepsRecord, hcl, hne]
        simp only [issueView, if_neg hpr, hcl, List.filter_cons, hk, if_pos,
          List.map_cons]
        rw [hres]
      | some cl =>
        have hd : 0 ≤ cl - issue.created_at := by
          have := hord issue (List.mem_cons_self _ _) cl hcl
          omega
        by_cases hlt : cl - issue.created_at < 60
        · have hif : (cl - issue.created_at).fdiv 86400 = 0 ∧
              (cl - issue.created_at).fmod 86400 < 60 :=
            (timedelta_under60_iff _ hd).mpr hlt
          have hk : keepsRecord collect_issues issue = false := by
            simp [keepsRecord, hcl]
            intro
            omega
          simp only [issueView, if_neg hpr, hcl, if_pos hif, List.filter_cons, hk]
          exact hres
        · have hif : ¬((cl - issue.created_at).fdiv 86400 = 0 ∧
              (cl - issue.created_at).fmod 86400 < 60) := by
            rw [timedelta_under60_iff _ hd]
            exact hlt
          have hk : keepsRecord collect_issues issue = true := by
            simp [keepsRecord, hcl, hne]
            omega
          simp only [issueView, if_neg hpr, hcl, if_neg hif, List.filter_cons, hk,
            if_pos, List.map_cons]
          rw [hres]

/-- Witness for claim C6's theorem: a concrete cache with one PR, one
fast-closed issue (59 s) and one slow-closed issue (60 s), viewed as
issues. -/
theorem c6_witness :
    issueView true
        [⟨true, 0, none, 1, "open"⟩, ⟨false, 100, some 159, 2, "closed"⟩,
          ⟨false, 200, some 260, 3, "closed"⟩] =
      ([⟨true, 0, none, 1, "open"⟩, ⟨false, 100, some 159, 2, "closed"⟩,
          ⟨false, 200, some 260, 3, "closed"⟩].filter (keepsRecord true)).map
        (fun r => (r.created_at, r.closed_at)) :=
  c6_view_filter true _ (by decide)

/-! ## Claim C4 -/

/-- Records whose ids are unknown to the cache are simply collected into
`results` (and counted as consumed), with cache, id list and validity
flag untouched. -/
theorem starLoop_append_new (total : Nat) (new rest : List StarRecord)
    (st : ReconState) (hnew : ∀ n ∈ new, n.id ∉ st.existing_ids) :
    starLoop total (new ++ rest) st =
      starLoop total rest
        { st with results := st.results ++ new,
                  consumed := st.consumed + new.length } := by
  induction new generalizing st with
  | nil =>
    cases st
    simp
  | cons n ns ih =>
    have hn : n.id ∉ st.existing_ids := hnew n (List.mem_cons_self _ _)
    have hns : ∀ m ∈ ns, m.id ∉ st.existing_ids :=
      fun m hm => hnew m (List.mem_cons_of_mem _ hm)
    rw [List.cons_append]
    simp only [starLoop, if_neg hn]
    rw [ih { st with results := st.results ++ [n], consumed := st.consumed + 1 } hns]
    congr 1
    cases st
    simp only [ReconState.mk.injEq, List.length_cons]
    refine ⟨trivial, trivial, ?_, trivial, ?_⟩
    · rw [List.append_assoc]
      rfl
    · omega

/-- When the scanned record's id is in the cache and the cache is not
longer than the expected remaining count, the scan stops at once: only
the validity flag and the consumed count change. -/
theorem starLoop_member_break (total : Nat) (sg : StarRecord)
    (rest : List StarRecord) (st : ReconState)
    (hmem : sg.id ∈ st.existing_ids)
    (hlen : (st.cached.length : Int) ≤ (total : Int) - (st.results.length : Int)) :
    starLoop total (sg :: rest) st =
      { st with cache_is_valid := true, consumed := st.consumed + 1 } := by
  obtain ⟨c, e, r, v, k⟩ := st
  simp only [starLoop] at *
  rw [if_pos hmem, if_neg (by omega)]

/-- The `.consumed` field of the result of `star_stats` is the consumed
count of the final loop state. -/
theorem star_stats_consumed (cached₀ stream : List StarRecord) (total : Nat) :
    (star_stats cached₀ stream total).consumed =
      (starLoop total stream ⟨cached₀, cached₀.map (·.id), [], false, 0⟩).consumed := by
  unfold star_stats
  by_cases h :
      (starLoop total stream ⟨cached₀, cached₀.map (·.id), [], false, 0⟩).results = [] <;>
    simp [h]

/-- Scanning some unknown records and then a record whose id matches a
cache of the expected remaining length consumes exactly the unknown
records plus one. -/
theorem starLoop_consumed_new_then_member (total : Nat)
    (new : List StarRecord) (x : StarRecord) (t : List StarRecord)
    (st : ReconState) (hnew : ∀ n ∈ new, n.id ∉ st.existing_ids)
    (hmem : x.id ∈ st.existing_ids)
    (hlen : (st.cached.length : Int) ≤
      (total : Int) - (st.results.length : Int) - (new.length : Int)) :
    (starLoop total (new ++ x :: t) st).consumed =
      st.consumed + new.length + 1 := by
  rw [starLoop_append_new _ _ _ _ hnew]
  rw [starLoop_member_break total x t
    { st with results := st.results ++ new, consumed := st.consumed + new.length }
    hmem (by simp only [List.length_append]; push_cast; omega)]

/-- Claim C4: for every non-empty cached ascending star list `L` and
every remote state equal to `L` with `k` new stars `N` appended at the
end (`total_count = (L ++ N).length`), the reconciler consumes exactly
`k + 1` records from the descending remote stream `(L ++ N).reverse`:
the `k` new records plus the one record whose identity matches the
cache, independently of the length of `L`. -/
theorem c4_prefix_preservation (L N : List StarRecord) (hL : L ≠ [])
    (hnew : ∀ n ∈ N, n.id ∉ L.map (·.id)) :
    (star_stats L ((L ++ N).reverse) (L ++ N).length).consumed = N.length + 1 := by
  rw [star_stats_consumed, List.reverse_append]
  match hrev : L.reverse with
  | [] => exact absurd (by simpa using congrArg List.reverse hrev) hL
  | x :: t =>
    have hx : x ∈ L := List.mem_reverse.mp (hrev ▸ List.mem_cons_self x t)
    rw [starLoop_consumed_new_then_member _ _ _ _ _
      (fun n hn => hnew n (List.mem_reverse.mp hn))
      (List.mem_map_of_mem (·.id) hx)
      (by simp)]
    simp

/-- Witness for claim C4's theorem: `L = [(1, 11), (2, 12)]`,
`N = [(3, 13), (4, 14)]`, hence 3 consumed records. -/
theorem c4_witness :
    (star_stats ([⟨1, 11⟩, ⟨2, 12⟩] : List StarRecord)
        ((([⟨1, 11⟩, ⟨2, 12⟩] : List StarRecord) ++ ([⟨3, 13⟩, ⟨4, 14⟩] : List StarRecord)).reverse)
        ((([⟨1, 11⟩, ⟨2, 12⟩] : List StarRecord) ++ ([⟨3, 13⟩, ⟨4, 14⟩] : List StarRecord))).length).consumed =
      2 + 1 :=
  c4_prefix_preservation [⟨1, 11⟩, ⟨2, 12⟩] [⟨3, 13⟩, ⟨4, 14⟩]
    (by decide) (by decide)

/-! ## Claim C3 -/

/-- Strict ascending order on star timestamps (used to state that a
cached list is strictly ascending, so that the sorted merge result is
uniquely determined). -/
def tsLt (a b : StarRecord) : Prop := a.starred_at < b.starred_at

instance : DecidableRel tsLt := fun a b =>
  inferInstanceAs (Decidable (a.starred_at < b.starred_at))

instance : IsAntisymm StarRecord tsLt :=
  ⟨fun _ _ h h' => absurd (lt_trans h h') (lt_irrefl _)⟩

/-- Sorting the reversal of a strictly ascending list restores the list:
the stable Python sort of the collected results recovers their ascending
order. -/
theorem insertionSort_reverse_of_sorted (S : List StarRecord)
    (h : S.Pairwise tsLt) :
    List.insertionSort tsLe S.reverse = S := by
  have hperm : List.Perm (List.insertionSort tsLe S.reverse) S :=
    (List.perm_insertionSort tsLe S.reverse).trans (List.reverse_perm S)
  have hle : (List.insertionSort tsLe S.reverse).Sorted tsLe :=
    List.sorted_insertionSort tsLe S.reverse
  have hne : (List.insertionSort tsLe S.reverse).Pairwise
      (fun a b => a.starred_at ≠ b.starred_at) := by
    refine ((hperm.pairwise_iff ?_).mpr (h.imp ?_))
    · exact fun hxy => Ne.symm hxy
    · exact fun hab => ne_of_lt hab
  have hlt : (List.insertionSort tsLe S.reverse).Sorted tsLt := by
    have := List.pairwise_and_iff.mpr ⟨hle, hne⟩
    exact this.imp (fun hab => lt_of_le_of_ne hab.1 hab.2)
  exact List.eq_of_perm_of_sorted hperm hlt h

/-- One iteration of the trimming loop that pops the tail record whose id
matches the scanned record: the boundary is found, `found_all` stays
false. -/
theorem trimLoop_pop_match (fuel : Nat) (C : List StarRecord) (s : StarRecord)
    (expected : Int) (hexp : expected < ((C ++ [s]).length : Int)) :
    trimLoop (fuel + 1) (C ++ [s]) ((C ++ [s]).map (·.id)) expected s.id =
      (C, C.map (·.id), false) := by
  rw [trimLoop,
    if_pos (show C ++ [s] ≠ [] ∧ expected < ((C ++ [s]).length : Int) from
      ⟨by simp, hexp⟩)]
  simp [List.getLast?_concat]

/-- One iteration of the trimming loop that pops a non-matching tail
record `x` and then finds the scanned record's id at the new tail with
the lengths agreeing: `found_all` is set. -/
theorem trimLoop_found_all (fuel : Nat) (Q : List StarRecord) (p x : StarRecord)
    (hne : x.id ≠ p.id) (expected : Int)
    (hexp : expected = ((Q ++ [p]).length : Int)) :
    trimLoop (fuel + 1) ((Q ++ [p]) ++ [x]) (((Q ++ [p]) ++ [x]).map (·.id))
        expected p.id =
      (Q ++ [p], (Q ++ [p]).map (·.id), true) := by
  rw [trimLoop,
    if_pos (show (Q ++ [p]) ++ [x] ≠ [] ∧
        expected < (((Q ++ [p]) ++ [x]).length : Int) from
      ⟨by simp, by simp [hexp]⟩)]
  simp [List.getLast?_concat, hne, List.getLast?_append, hexp]

/-- The S-phase of a pure-removal reconciliation: while the scan walks
the reversed tail `S` of the cache, each record is popped from the cache
tail (the boundary pop) and immediately re-collected into `results`. -/
theorem starLoop_pop_tail (total : Nat) (S P : List StarRecord) (x : StarRecord)
    (rest R : List StarRecord) (v : Bool) (k : Nat)
    (htot : (total : Int) = P.length + S.length + R.length) :
    starLoop total (S.reverse ++ rest)
      ⟨P ++ x :: S, (P ++ x :: S).map (·.id), R, v, k⟩ =
    starLoop total rest
      ⟨P ++ [x], (P ++ [x]).map (·.id), R ++ S.reverse, v || !S.isEmpty,
        k + S.length⟩ := by
  induction S using List.reverseRecOn generalizing R v k with
  | nil =>
    simp
  | append_singleton S' sg ih =>
    have htot' : (total : Int) = P.length + S'.length + 1 + R.length := by
      simp only [List.length_append, List.length_cons, List.length_nil] at htot
      push_cast at htot ⊢
      omega
    rw [List.reverse_append, List.reverse_cons, List.reverse_nil, List.nil_append,
      List.singleton_append, List.cons_append]
    have hmem : sg.id ∈ (P ++ x :: (S' ++ [sg])).map (·.id) := by simp
    simp only [starLoop, if_pos hmem]
    rw [if_pos (by
      simp only [List.length_append, List.length_cons, List.length_nil]
      push_cast
      omega)]
    have hcast : P ++ x :: (S' ++ [sg]) = ((P ++ x :: S') ++ [sg]) := by simp
    rw [hcast]
    rw [show (((P ++ x :: S') ++ [sg])).length = (P ++ x :: S').length + 1 from by
      simp
      omega]
    rw [trimLoop_pop_match _ _ _ _ (by
      simp only [List.length_append, List.length_cons, List.length_nil]
      push_cast
      omega)]
    simp only [Bool.false_eq_true, if_false]
    rw [ih (R ++ [sg]) true (k + 1) (by
      simp only [List.length_append, List.length_cons, List.length_nil]
      push_cast
      omega)]
    congr 1
    simp only [ReconState.mk.injEq]
    refine ⟨trivial, trivial, ?_, ?_, ?_⟩
    · rw [List.append_assoc]
      rfl
    · simp
    · simp
      omega
/-- The boundary step of a pure-removal reconciliation: scanning the
record `p` now at the expected position pops the removed record `x` from
the cache tail and stops the scan with `found_all`. -/
theorem starLoop_found_all_break (total : Nat) (Q : List StarRecord)
    (p x : StarRecord) (rest R : List StarRecord) (v : Bool) (k : Nat)
    (hne : x.id ≠ p.id)
    (htot : (total : Int) = ((Q ++ [p]).length : Int) + (R.length : Int)) :
    starLoop total (p :: rest)
      ⟨(Q ++ [p]) ++ [x], ((Q ++ [p]) ++ [x]).map (·.id), R, v, k⟩ =
    ⟨Q ++ [p], (Q ++ [p]).map (·.id), R, true, k + 1⟩ := by
  have hmem : p.id ∈ ((Q ++ [p]) ++ [x]).map (·.id) := by simp
  simp only [starLoop, if_pos hmem]
  rw [if_pos (by
    simp only [List.length_append, List.length_cons, List.length_nil] at htot ⊢
    push_cast at htot ⊢
    omega)]
  rw [show ((((Q ++ [p]) ++ [x])).length) = ((Q ++ [p])).length + 1 from by
    simp]
  rw [trimLoop_found_all _ _ _ _ hne _ (by
    simp only [List.length_append, List.length_cons, List.length_nil] at htot ⊢
    push_cast at htot ⊢
    omega)]
  simp

/-- Claim C3: for a cached ascending star list `P ++ [x] ++ S` (with
pairwise-distinct ids and strictly ascending timestamps) and a remote
state equal to that cache with the record `x` — the `i`-th from the end,
where `i - 1` is the length of `S` — removed and nothing added, the
reconciler trims exactly the cached entries at or after `x`'s position
(the trimmed tail `S` is re-collected unchanged from the remote stream)
and re-adds none of the removed records: the reconciled list is exactly
`P ++ S`, and `x` is gone from it. -/
theorem c3_removal_detection (P S : List StarRecord) (x : StarRecord)
    (hnd : ((P ++ x :: S).map (·.id)).Nodup)
    (hsort : (P ++ x :: S).Pairwise tsLt) :
    (star_stats (P ++ x :: S) ((P ++ S).reverse) (P.length + S.length)).final
      = P ++ S ∧
    x.id ∉ ((P ++ S).map (·.id)) := by
  have hxid : x.id ∉ ((P ++ S).map (·.id)) := by
    have hmid : ((P ++ x :: S).map (·.id)) =
        (P.map (·.id)) ++ x.id :: (S.map (·.id)) := by simp
    rw [hmid] at hnd
    have := List.nodup_middle.mp hnd
    rw [List.nodup_cons] at this
    simpa using this.1
  refine ⟨?_, hxid⟩
  have hPx : x.id ∉ P.map (·.id) := fun h =>
    hxid (by rw [List.map_append]; exact List.mem_append_left _ h)
  have hSsort : S.Pairwise tsLt :=
    hsort.sublist ((List.sublist_cons_self x S).trans (List.sublist_append_right P _))
  have hst := starLoop_pop_tail (P.length + S.length) S P x P.reverse [] false 0
    (by simp)
  rw [List.reverse_append]
  simp only [star_stats]
  rw [hst]
  clear hst hnd hsort hxid
  revert hPx
  induction P using List.reverseRecOn with
  | nil =>
    intro _
    rw [List.reverse_nil]
    simp only [starLoop]
    by_cases hS : S = []
    · subst hS
      simp
    · have hres : (([] : List StarRecord) ++ S.reverse) ≠ [] := by
        simp only [List.nil_append, ne_eq, List.reverse_eq_nil_iff]
        exact hS
      rw [if_pos hres]
      have hguard : ((false || !S.isEmpty) = false ∨
          ((([] : List StarRecord).length + S.length : Nat) : Int) -
            ((([] : List StarRecord) ++ S.reverse).length : Int) <
            ((([] : List StarRecord) ++ [x]).length : Int)) := by
        right
        simp
      rw [if_pos hguard]
      simp [insertionSort_reverse_of_sorted S hSsort]
  | append_singleton Q p _ =>
    intro hPx
    have hne : x.id ≠ p.id := fun h => hPx (by simp [h])
    rw [List.reverse_append, List.reverse_cons, List.reverse_nil, List.nil_append,
      List.singleton_append]
    rw [starLoop_found_all_break _ _ _ _ _ _ _ _ hne (by simp)]
    have hguard : ¬((true : Bool) = false ∨
        ((((Q ++ [p]).length + S.length : Nat)) : Int) -
          ((([] : List StarRecord) ++ S.reverse).length : Int) <
          (((Q ++ [p]).length : Nat) : Int)) := by
      push_neg
      exact ⟨fun h => by simp at h, by simp⟩
    rw [if_neg hguard]
    by_cases hS : S = []
    · subst hS
      simp
    · have hres : (([] : List StarRecord) ++ S.reverse) ≠ [] := by
        simp only [List.nil_append, ne_eq, List.reverse_eq_nil_iff]
        exact hS
      rw [if_pos hres]
      simp [insertionSort_reverse_of_sorted S hSsort]

/-- Witness for claim C3's theorem: cache `[(1,11),(2,12),(3,13)]` with
the middle record `(2,12)` (2nd from the end) removed remotely. -/
theorem c3_witness :
    (star_stats (([⟨1, 11⟩] : List StarRecord) ++ (⟨2, 12⟩ : StarRecord) :: ([⟨3, 13⟩] : List StarRecord))
        ((([⟨1, 11⟩] : List StarRecord) ++ ([⟨3, 13⟩] : List StarRecord)).reverse)
        ([(⟨1, 11⟩ : StarRecord)].length + [(⟨3, 13⟩ : StarRecord)].length)).final =
      ([⟨1, 11⟩] : List StarRecord) ++ ([⟨3, 13⟩] : List StarRecord) ∧
    (⟨2, 12⟩ : StarRecord).id ∉
      ((([⟨1, 11⟩] : List StarRecord) ++ ([⟨3, 13⟩] : List StarRecord)).map (·.id)) :=
  c3_removal_detection [⟨1, 11⟩] [⟨3, 13⟩] ⟨2, 12⟩ (by decide) (by decide)

/-! ## Claim C7 -/

/-- The issue count stored in the slot at position `j` (0 out of range). -/
def nrAt (slots : List Slot) (j : Nat) : Nat := (slots.getD j ⟨0, 0, 0⟩).nr

theorem pyIdx_some_lt {len : Nat} {i : Int} {n : Nat} (h : pyIdx len i = some n) :
    n < len := by
  unfold pyIdx at h
  split at h <;> split at h <;> simp_all <;> omega

theorem pyIdx_nonneg_lt {len : Nat} {i : Int} (h0 : 0 ≤ i) (hlt : i < (len : Int)) :
    pyIdx len i = some i.toNat := by
  unfold pyIdx
  rw [if_pos h0, if_pos hlt]

theorem length_pySet (slots : List Slot) (i : Int) (v : Slot) :
    (pySet slots i v).length = slots.length := by
  unfold pySet
  cases pyIdx slots.length i <;> simp

theorem pyGet_eq_getD {slots : List Slot} {i : Int} {j : Nat}
    (h : pyIdx slots.length i = some j) :
    pyGet slots i = slots.getD j ⟨0, 0, 0⟩ := by
  unfold pyGet
  rw [h]

theorem pySet_eq_some {slots : List Slot} {i : Int} {n : Nat} (v : Slot)
    (h : pyIdx slots.length i = some n) :
    pySet slots i v = slots.set n v := by
  unfold pySet
  rw [h]

theorem pySet_eq_none {slots : List Slot} {i : Int} (v : Slot)
    (h : pyIdx slots.length i = none) :
    pySet slots i v = slots := by
  unfold pySet
  rw [h]

theorem nrAt_pySet_le (slots : List Slot) (i : Int) (v : Slot) (j : Nat)
    (hnr : (pyGet slots i).nr ≤ v.nr) :
    nrAt slots j ≤ nrAt (pySet slots i v) j := by
  cases h : pyIdx slots.length i with
  | none => rw [pySet_eq_none v h]
  | some n =>
    have hn : n < slots.length := pyIdx_some_lt h
    rw [pyGet_eq_getD h] at hnr
    rw [pySet_eq_some v h]
    by_cases hj : n = j
    · subst hj
      unfold nrAt
      simp only [List.getD_eq_getElem?_getD]
      rw [List.getElem?_set_self hn, Option.getD_some,
        List.getElem?_eq_getElem hn, Option.getD_some]
      rw [List.getD_eq_getElem?_getD, List.getElem?_eq_getElem hn,
        Option.getD_some] at hnr
      exact hnr
    · unfold nrAt
      simp only [List.getD_eq_getElem?_getD]
      rw [List.getElem?_set_ne hj]

theorem nrAt_pySet_eq (slots : List Slot) (i : Int) (v : Slot) (j : Nat)
    (h : pyIdx slots.length i = some j) :
    nrAt (pySet slots i v) j = v.nr := by
  have hn : j < slots.length := pyIdx_some_lt h
  rw [pySet_eq_some v h]
  unfold nrAt
  simp only [List.getD_eq_getElem?_getD]
  rw [List.getElem?_set_self hn, Option.getD_some]

theorem lifeLoop1_spec (slots : List Slot) (sl : Nat) (et index days : Int) :
    (lifeLoop1 slots sl et index days).1.length = slots.length ∧
    index ≤ (lifeLoop1 slots sl et index days).2 ∧
    (∀ j : Nat, nrAt slots j ≤ nrAt (lifeLoop1 slots sl et index days).1 j) ∧
    (sl = slots.length → ∀ j : Nat, index ≤ (j : Int) →
      (j : Int) < (lifeLoop1 slots sl et index days).2 →
      nrAt slots j + 1 ≤ nrAt (lifeLoop1 slots sl et index days).1 j) := by
  induction slots, sl, et, index, days using lifeLoop1.induct with
  | case1 slots sl et index days h ih =>
    rw [lifeLoop1, dif_pos h]
    obtain ⟨ihl, ihi, ihm, ihc⟩ := ih
    have hbump : ∀ j : Nat, nrAt slots j ≤ nrAt (pySet slots index
        { pyGet slots index with
            days := (pyGet slots index).days + days,
            nr := (pyGet slots index).nr + 1 }) j :=
      fun j => nrAt_pySet_le slots index _ j (Nat.le_succ _)
    refine ⟨ihl.trans (length_pySet _ _ _), by omega,
      fun j => (hbump j).trans (ihm j), ?_⟩
    intro hsl j hj1 hj2
    by_cases hje : (j : Int) = index
    · have hlt : index < (slots.length : Int) := by rw [← hsl]; exact h.1
      have hidx : pyIdx slots.length index = some j := by
        rw [pyIdx_nonneg_lt (by omega : (0 : Int) ≤ index) hlt]
        congr 1
        omega
      have heq : nrAt (pySet slots index
          { pyGet slots index with
              days := (pyGet slots index).days + days,
              nr := (pyGet slots index).nr + 1 }) j = nrAt slots j + 1 := by
        rw [nrAt_pySet_eq _ _ _ _ hidx, pyGet_eq_getD hidx]
        rfl
      have := ihm j
      omega
    · have := ihc (by rw [length_pySet]; exact hsl) j (by omega) hj2
      have := hbump j
      omega
  | case2 slots sl et index days h =>
    rw [lifeLoop1, dif_neg h]
    exact ⟨rfl, le_refl _, fun j => le_refl _, fun _ j hj1 hj2 => absurd hj2 (by omega)⟩

theorem lifeLoop2_spec (slots : List Slot) (sl : Nat) (index days : Int) :
    (lifeLoop2 slots sl index days).length = slots.length ∧
    (∀ j : Nat, nrAt slots j ≤ nrAt (lifeLoop2 slots sl index days) j) ∧
    (sl = slots.length → ∀ j : Nat, index ≤ (j : Int) → (j : Int) < (sl : Int) →
      nrAt slots j + 1 ≤ nrAt (lifeLoop2 slots sl index days) j) := by
  induction slots, sl, index, days using lifeLoop2.induct with
  | case1 slots sl index days h ih =>
    rw [lifeLoop2, dif_pos h]
    obtain ⟨ihl, ihm, ihc⟩ := ih
    have hbump : ∀ j : Nat, nrAt slots j ≤ nrAt (pySet slots index
        { pyGet slots index with
            days := (pyGet slots index).days + days,
            nr := (pyGet slots index).nr + 1 }) j :=
      fun j => nrAt_pySet_le slots index _ j (Nat.le_succ _)
    refine ⟨ihl.trans (length_pySet _ _ _), fun j => (hbump j).trans (ihm j), ?_⟩
    intro hsl j hj1 hj2
    by_cases hje : (j : Int) = index
    · have hlt : index < (slots.length : Int) := by rw [← hsl]; exact h
      have hidx : pyIdx slots.length index = some j := by
        rw [pyIdx_nonneg_lt (by omega : (0 : Int) ≤ index) hlt]
        congr 1
        omega
      have heq : nrAt (pySet slots index
          { pyGet slots index with
              days := (pyGet slots index).days + days,
              nr := (pyGet slots index).nr + 1 }) j = nrAt slots j + 1 := by
        rw [nrAt_pySet_eq _ _ _ _ hidx, pyGet_eq_getD hidx]
        rfl
      have := ihm j
      omega
    · have := ihc (by rw [length_pySet]; exact hsl) j (by omega) hj2
      have := hbump j
      omega
  | case2 slots sl index days h =>
    rw [lifeLoop2, dif_neg h]
    exact ⟨rfl, fun j => le_refl _, fun _ j hj1 hj2 => absurd h (by omega)⟩

theorem processIssue_length (sl : Nat) (start now : Int) (slots : List Slot)
    (issue : Int × Option Int) :
    (processIssue sl start now slots issue).length = slots.length := by
  unfold processIssue
  exact (lifeLoop2_spec _ _ _ _).1.trans (lifeLoop1_spec _ _ _ _ _).1

theorem processIssue_mono (sl : Nat) (start now : Int) (slots : List Slot)
    (issue : Int × Option Int) (j : Nat) :
    nrAt slots j ≤ nrAt (processIssue sl start now slots issue) j := by
  unfold processIssue
  exact le_trans ((lifeLoop1_spec _ _ _ _ _).2.2.1 j) ((lifeLoop2_spec _ _ _ _).2.1 j)

/-- Every issue whose opened time equals the earliest opened time (hence
the slot grid origin) contributes to EVERY slot: its first loop starts at
slot index 0 and the two loops together touch every index up to
`slot_len`. -/
theorem processIssue_covers (start now : Int) (slots : List Slot)
    (issue : Int × Option Int) (hfirst : issue.1 = start) (j : Nat)
    (hj : j < slots.length) :
    nrAt slots j + 1 ≤ nrAt (processIssue slots.length start now slots issue) j := by
  simp only [processIssue]
  have hzero : ((issue.1 - start).fdiv 86400).fdiv 7 = 0 := by
    rw [hfirst, sub_self]
    rfl
  obtain ⟨hlen1, hle1, hmono1, hcov1⟩ :=
    lifeLoop1_spec slots slots.length (issue.2.getD now)
      (((issue.1 - start).fdiv 86400).fdiv 7) (7 - ((issue.1 - start).fdiv 86400).fmod 7)
  obtain ⟨hlen2, hmono2, hcov2⟩ :=
    lifeLoop2_spec (lifeLoop1 slots slots.length (issue.2.getD now)
        (((issue.1 - start).fdiv 86400).fdiv 7)
        (7 - ((issue.1 - start).fdiv 86400).fmod 7)).1
      slots.length
      (lifeLoop1 slots slots.length (issue.2.getD now)
        (((issue.1 - start).fdiv 86400).fdiv 7)
        (7 - ((issue.1 - start).fdiv 86400).fmod 7)).2
      ((issue.2.getD now - issue.1).fdiv 86400)
  by_cases hc : (j : Int) <
      (lifeLoop1 slots slots.length (issue.2.getD now)
        (((issue.1 - start).fdiv 86400).fdiv 7)
        (7 - ((issue.1 - start).fdiv 86400).fmod 7)).2
  · exact le_trans (hcov1 rfl j (by rw [hzero]; exact Int.ofNat_nonneg j) hc) (hmono2 j)
  · push_neg at hc
    have h2 := hcov2 hlen1.symm j hc (by omega)
    have h1 := hmono1 j
    omega

theorem foldl_processIssue_ge (issues : List (Int × Option Int)) (sl : Nat)
    (start now : Int) :
    ∀ slots : List Slot,
      (List.foldl (processIssue sl start now) slots issues).length = slots.length ∧
      ∀ j : Nat, nrAt slots j ≤
        nrAt (List.foldl (processIssue sl start now) slots issues) j := by
  induction issues with
  | nil => exact fun slots => ⟨rfl, fun j => le_refl _⟩
  | cons i is ih =>
    intro slots
    rw [List.foldl_cons]
    obtain ⟨hl, hm⟩ := ih (processIssue sl start now slots i)
    exact ⟨hl.trans (processIssue_length _ _ _ _ _),
      fun j => le_trans (processIssue_mono _ _ _ _ _ j) (hm j)⟩

/-- Claim C7: in the weekly-average-lifetime aggregator, for every
non-empty record list whose first record is opened at the earliest opened
timestamp, before `now`, every generated weekly slot accumulates at least
one contributing item before the per-slot division
(`slot["days"] // slot["nr"]`, `show_gh_stats.py` line 264), so that
division is never a division by zero.  (The first issue alone already
contributes to every slot, and later issues only ever increment the
per-slot counters.) -/
theorem c7_lifetime_slots_nonzero (first : Int × Option Int)
    (rest : List (Int × Option Int)) (now : Int)
    (hearliest : ∀ i ∈ first :: rest, first.1 ≤ i.1)
    (hnow : first.1 < now) :
    ∀ s ∈ lifetimeSlots (first :: rest) now, 0 < s.nr := by
  intro s hs
  simp only [lifetimeSlots] at hs
  rw [List.foldl_cons] at hs
  obtain ⟨hlen, hmono⟩ := foldl_processIssue_ge rest (makeSlots first.1 now).length
    first.1 now (processIssue (makeSlots first.1 now).length first.1 now
      (makeSlots first.1 now) first)
  obtain ⟨j, hj, hj_eq⟩ := List.getElem_of_mem hs
  have hjlt : j < (makeSlots first.1 now).length := by
    rw [hlen, processIssue_length] at hj
    exact hj
  have h1 := processIssue_covers first.1 now (makeSlots first.1 now) first rfl j hjlt
  have h2 := hmono j
  have h3 : nrAt (List.foldl
      (processIssue (makeSlots first.1 now).length first.1 now)
      (processIssue (makeSlots first.1 now).length first.1 now
        (makeSlots first.1 now) first) rest) j = s.nr := by
    unfold nrAt
    rw [List.getD_eq_getElem?_getD, List.getElem?_eq_getElem hj, Option.getD_some,
      hj_eq]
  omega

/-- Witness for claim C7's theorem: one issue opened at time 0 and still
open, `now` one second later — a single slot, counting that issue. -/
theorem c7_witness :
    (lifetimeSlots [((0 : Int), (none : Option Int))] 1).all
      (fun s => decide (0 < s.nr)) = true := by
  rw [List.all_eq_true]
  intro s hs
  simpa using c7_lifetime_slots_nonzero (0, none) [] 1
    (by intro i hi; simp at hi; simp [hi]) (by norm_num) s hs

/-! ## Shared analysis of the trimming loop (claims C8 and C10) -/

/-- When the loop guard fails the trimming loop returns its input
unchanged with `found_all = false`, for any fuel. -/
theorem trimLoop_guard_false (fuel : Nat) (cached : List StarRecord)
    (existing_ids : List Nat) (expected : Int) (user_id : Nat)
    (h : ¬(cached ≠ [] ∧ expected < (cached.length : Int))) :
    trimLoop fuel cached existing_ids expected user_id =
      (cached, existing_ids, false) := by
  cases fuel with
  | zero => rfl
  | succ f => rw [trimLoop, if_neg h]

/-- Full characterisation of the trimming loop run from a cache list `L`
with its id list in lockstep: the result is a prefix `L.take j` (ids in
lockstep), and the run ends in one of three ways —
`found_all` at the expected length with the scanned id at the new tail;
a boundary pop whose popped record carries the scanned id; or a plain
guard exit at the expected length with the scanned id still inside the
surviving prefix. -/
theorem trimLoop_spec (fuel : Nat) (L : List StarRecord) (expected : Int)
    (u : Nat) (hfuel : L.length ≤ fuel) (hu : u ∈ L.map (·.id))
    (hexp : expected < (L.length : Int)) :
    ∃ j : Nat, j < L.length ∧
      ∃ fa : Bool, trimLoop fuel L (L.map (·.id)) expected u =
        (L.take j, (L.take j).map (·.id), fa) ∧
      ((fa = true ∧ (j : Int) = expected ∧
          ∃ w, (L.take j).getLast? = some w ∧ w.id = u) ∨
       (fa = false ∧ expected ≤ (j : Int) ∧
          ∃ w tail, L.drop j = w :: tail ∧ w.id = u) ∨
       (fa = false ∧ (j : Int) = expected ∧ u ∈ (L.take j).map (·.id))) := by
  induction fuel generalizing L with
  | zero =>
    have : L = [] := List.length_eq_zero.mp (Nat.le_zero.mp hfuel)
    subst this
    exact absurd hu (by simp)
  | succ f ih =>
    rcases List.eq_nil_or_concat L with rfl | ⟨M, w, rfl⟩
    · exact absurd hu (by simp)
    rw [List.concat_eq_append] at hu hexp hfuel ⊢
    have hstep : trimLoop (f + 1) (M ++ [w]) ((M ++ [w]).map (·.id)) expected u =
        (if w.id = u then (M, M.map (·.id), false)
         else if ((M.length : Int) = expected ∧
             (M.map (·.id)).getLast? = some u) then
           (M, M.map (·.id), true)
         else trimLoop f M (M.map (·.id)) expected u) := by
      rw [trimLoop,
        if_pos (show M ++ [w] ≠ [] ∧ expected < ((M ++ [w]).length : Int) from
          ⟨by simp, hexp⟩)]
      simp only [List.map_append, List.map_cons, List.map_nil,
        List.getLast?_concat, Option.getD_some, List.dropLast_concat]
    by_cases h1 : w.id = u
    · refine ⟨M.length, by simp, false, ?_, ?_⟩
      · rw [hstep, if_pos h1, List.take_left]
      · refine Or.inr (Or.inl ⟨rfl, ?_, w, [], ?_, h1⟩)
        · simp only [List.length_append, List.length_cons, List.length_nil] at hexp
          push_cast at hexp ⊢
          omega
        · rw [List.drop_left]
    · by_cases h2 : ((M.length : Int) = expected ∧
          (M.map (·.id)).getLast? = some u)
      · obtain ⟨w', hw', hw'id⟩ : ∃ w', M.getLast? = some w' ∧ w'.id = u := by
          have := h2.2
          rw [List.getLast?_map] at this
          obtain ⟨w', h', h''⟩ := Option.map_eq_some'.mp this
          exact ⟨w', h', h''⟩
        refine ⟨M.length, by simp, true, ?_, ?_⟩
        · rw [hstep, if_neg h1, if_pos h2, List.take_left]
        · refine Or.inl ⟨rfl, h2.1, w', ?_, hw'id⟩
          rw [List.take_left]
          exact hw'
      · have hu' : u ∈ M.map (·.id) := by
          rcases (by simpa using hu : (∃ a ∈ M, a.id = u) ∨ u = w.id) with h | h
          · obtain ⟨a, ha, hau⟩ := h
            exact hau ▸ List.mem_map_of_mem _ ha
          · exact absurd h.symm h1
        have hM : M ≠ [] := by
          intro hMnil
          rw [hMnil] at hu'
          simp at hu'
        by_cases h3 : expected < (M.length : Int)
        · obtain ⟨j, hj, fa, heq, hcase⟩ := ih M (by
            simp only [List.length_append, List.length_cons, List.length_nil] at hfuel
            omega) hu' h3
          have htake : (M ++ [w]).take j = M.take j :=
            List.take_append_of_le_length (le_of_lt hj)
          refine ⟨j, by simp; omega, fa, ?_, ?_⟩
          · rw [hstep, if_neg h1, if_neg h2, heq, htake]
          · rw [htake]
            rcases hcase with ⟨hfa, hje, w', hw', hw'id⟩ | ⟨hfa, hje, w', tail, hd, hw'id⟩ |
              ⟨hfa, hje, hmem⟩
            · exact Or.inl ⟨hfa, hje, w', hw', hw'id⟩
            · refine Or.inr (Or.inl ⟨hfa, hje, w', tail ++ [w], ?_, hw'id⟩)
              rw [List.drop_append_of_le_length (le_of_lt hj), hd]
              rfl
            · exact Or.inr (Or.inr ⟨hfa, hje, hmem⟩)
        · have hMlen : (M.length : Int) = expected := by
            simp only [List.length_append, List.length_cons, List.length_nil] at hexp
            push_cast at hexp ⊢
            omega
          refine ⟨M.length, by simp, false, ?_, ?_⟩
          · rw [hstep, if_neg h1, if_neg h2,
              trimLoop_guard_false _ _ _ _ _ (by push_neg; intro _; omega),
              List.take_left]
          · refine Or.inr (Or.inr ⟨rfl, hMlen, ?_⟩)
            rw [List.take_left]
            exact hu'

/-- In a `tsLe`-sorted list every element is at most the last one. -/
theorem pairwise_le_getLast {l : List StarRecord} (hl : l.Pairwise tsLe)
    {w : StarRecord} (hw : l.getLast? = some w) :
    ∀ c ∈ l, c.starred_at ≤ w.starred_at := by
  intro c hc
  have heq : l.dropLast ++ [w] = l :=
    List.dropLast_append_getLast? w (Option.mem_def.mpr hw)
  rw [← heq] at hc hl
  rcases List.mem_append.mp hc with h | h
  · exact (List.pairwise_append.mp hl).2.2 c h w (by simp)
  · have : c = w := by simpa using h
    exact this ▸ le_refl _

/-- A result record is "good" for the surviving cache prefix of length
`k`: its timestamp is at least every surviving cached timestamp.  All
good results keep the merged list sorted. -/
def GoodR (C : List StarRecord) (k : Nat) (r : StarRecord) : Prop :=
  ∀ c ∈ C.take k, c.starred_at ≤ r.starred_at

/-- A result record is "bad but bounded": a surviving cached record still
carries its id (and, by consistency, its timestamp).  Such a record can
only have been collected by the plain-exit fall-through of the trimming
loop. -/
def BadR (C : List StarRecord) (k : Nat) (r : StarRecord) : Prop :=
  ∃ c ∈ C.take k, c.id = r.id ∧ c.starred_at = r.starred_at

/-- The loop invariant for the order claim C8: the in-memory cache is a
prefix of the original cache (ids in lockstep), the collected results
form a subsequence of the consumed stream prefix, every result is good
or bad-but-bounded, and whenever the cache is not longer than the
expected remaining count every result is good. -/
def Inv8 (C : List StarRecord) (total : Nat) (done : List StarRecord)
    (st : ReconState) : Prop :=
  ∃ k, k ≤ C.length ∧ st.cached = C.take k ∧
    st.existing_ids = (C.take k).map (·.id) ∧
    st.results.Sublist done ∧
    (∀ r ∈ st.results, GoodR C k r ∨ BadR C k r) ∧
    ((k : Int) ≤ (total : Int) - (st.results.length : Int) →
      ∀ r ∈ st.results, GoodR C k r)

/-- The scan loop preserves the C8 invariant: from any state satisfying
it with stream suffix `rest` still to scan, the final state satisfies it
for the whole stream. -/
theorem starLoop_inv8 (C S : List StarRecord) (total : Nat)
    (hC : C.Pairwise tsLe)
    (hS : S.Pairwise (fun a b => b.starred_at ≤ a.starred_at))
    (hcons : ∀ s ∈ S, ∀ c ∈ C, s.id = c.id → s.starred_at = c.starred_at)
    (hnew : ∀ s ∈ S, s.id ∉ C.map (·.id) →
      ∀ c ∈ C, c.starred_at ≤ s.starred_at) :
    ∀ (rest done : List StarRecord), S = done ++ rest →
      ∀ st : ReconState, Inv8 C total done st →
      Inv8 C total S (starLoop total rest st) := by
  intro rest
  induction rest with
  | nil =>
    intro done hsplit st hinv
    rw [List.append_nil] at hsplit
    subst hsplit
    simpa [starLoop] using hinv
  | cons sg rest' ih =>
    intro done hsplit st hinv
    obtain ⟨k, hk, hcached, hids, hsub, hGB, hI5⟩ := hinv
    have hprefix : done.Sublist S := hsplit ▸ List.sublist_append_left done _
    have hdesc : ∀ d ∈ done, sg.starred_at ≤ d.starred_at := by
      have hp := List.pairwise_append.mp (hsplit ▸ hS)
      exact fun d hd => hp.2.2 d hd sg (List.mem_cons_self _ _)
    have hsgS : sg ∈ S := hsplit ▸ List.mem_append_right _ (List.mem_cons_self _ _)
    have hres_ts : ∀ r ∈ st.results, sg.starred_at ≤ r.starred_at :=
      fun r hr => hdesc r (hsub.subset hr)
    have hCk : (C.take k).Pairwise tsLe := hC.sublist (List.take_sublist _ _)
    have hsplit' : S = (done ++ [sg]) ++ rest' := by
      rw [List.append_assoc]
      exact hsplit
    simp only [starLoop]
    by_cases hmem : sg.id ∈ st.existing_ids
    · rw [if_pos hmem]
      by_cases hD : (total : Int) - (st.results.length : Int) <

          (st.cached.length : Int)
      · rw [if_pos hD]
        have hu' : sg.id ∈ (C.take k).map (·.id) := hids ▸ hmem
        have hexp' : (total : Int) - (st.results.length : Int) <
            ((C.take k).length : Int) := by
          rw [← hcached]
          exact hD
        obtain ⟨j, hj, fa, heq, hcase⟩ := trimLoop_spec (C.take k).length (C.take k)
          ((total : Int) - (st.results.length : Int)) sg.id (le_refl _) hu' hexp'
        have hjk : j ≤ k := le_of_lt (lt_of_lt_of_le hj (by
          rw [List.length_take]
          exact min_le_left _ _))
        have htt : (C.take k).take j = C.take j := by
          rw [List.take_take, min_eq_left hjk]
        rw [hcached, hids, heq]
        rcases hcase with ⟨hfa, hje, w, hw, hwid⟩ | ⟨hfa, hje, w, tail, hdrop, hwid⟩ |
          ⟨hfa, hje, hmem'⟩
        · -- found_all: the loop breaks; everything is good
          subst hfa
          rw [if_pos rfl]
          rw [htt] at hw
          have hwC : w ∈ C :=
            (List.take_sublist _ _).subset (List.mem_of_getLast?_eq_some hw)
          have hwts : ∀ c ∈ C.take j, c.starred_at ≤ w.starred_at :=
            pairwise_le_getLast (hC.sublist (List.take_sublist _ _)) hw
          have hwsg : sg.starred_at = w.starred_at :=
            hcons sg hsgS w hwC hwid.symm
          have hgood : ∀ r ∈ st.results, GoodR C j r := by
            intro r hr c hc
            exact le_trans (hwts c hc) (hwsg ▸ hres_ts r hr)
          exact ⟨j, hjk.trans hk, htt, by rw [htt], hsub.trans hprefix,
            fun r hr => Or.inl (hgood r hr), fun _ => hgood⟩
        · -- boundary pop: sg is re-collected; everything is good
          subst hfa
          rw [if_neg (by simp)]
          apply ih (done ++ [sg]) hsplit'
          have hsplit2 : C.take k = C.take j ++ w :: tail := by
            rw [← htt, ← hdrop, List.take_append_drop]
          have hwC : w ∈ C := (List.take_sublist k C).subset
            (by rw [hsplit2]; exact List.mem_append_right _ (List.mem_cons_self _ _))
          have hwts : ∀ c ∈ C.take j, c.starred_at ≤ w.starred_at := by
            have hp := List.pairwise_append.mp (hsplit2 ▸ hCk)
            exact fun c hc => hp.2.2 c hc w (List.mem_cons_self _ _)
          have hwsg : sg.starred_at = w.starred_at := hcons sg hsgS w hwC hwid.symm
          have hgood : ∀ r ∈ st.results ++ [sg], GoodR C j r := by
            intro r hr c hc
            rcases List.mem_append.mp hr with h | h
            · exact le_trans (hwts c hc) (hwsg ▸ hres_ts r h)
            · have : r = sg := by simpa using h
              subst this
              exact le_trans (hwts c hc) (le_of_eq hwsg.symm)
          exact ⟨j, hjk.trans hk, htt, by rw [htt],
            List.Sublist.append hsub (List.Sublist.refl _),
            fun r hr => Or.inl (hgood r hr), fun _ => hgood⟩
        · -- plain exit: sg is re-collected and stays bad-but-bounded
          subst hfa
          rw [if_neg (by simp)]
          apply ih (done ++ [sg]) hsplit'
          have hsplit2 : C.take k = C.take j ++ (C.take k).drop j := by
            rw [← htt, List.take_append_drop]
          have hGB' : ∀ r ∈ st.results ++ [sg], GoodR C j r ∨ BadR C j r := by
            intro r hr
            rcases List.mem_append.mp hr with h | h
            · rcases hGB r h with hg | ⟨c₀, hc₀, hcid, hcts⟩
              · left
                intro c hc
                exact hg c (by rw [hsplit2]; exact List.mem_append_left _ hc)
              · rcases List.mem_append.mp (hsplit2 ▸ hc₀) with hin | hin
                · exact Or.inr ⟨c₀, hin, hcid, hcts⟩
                · left
                  intro c hc
                  have hp := List.pairwise_append.mp (hsplit2 ▸ hCk)
                  exact hcts ▸ hp.2.2 c hc c₀ hin
            · have hrsg : r = sg := by simpa using h
              right
              rw [htt] at hmem'
              obtain ⟨c, hc, hcid⟩ := List.mem_map.mp hmem'
              refine ⟨c, hc, ?_, ?_⟩
              · rw [hrsg]
                exact hcid
              · rw [hrsg]
                exact (hcons sg hsgS c
                  ((List.take_sublist _ _).subset hc) hcid.symm).symm
          refine ⟨j, hjk.trans hk, htt, by rw [htt],
            List.Sublist.append hsub (List.Sublist.refl _), hGB', ?_⟩
          intro hle
          exfalso
          simp only [List.length_append, List.length_cons, List.length_nil] at hle
          push_cast at hle hje
          omega
      · rw [if_neg hD]
        exact ⟨k, hk, hcached, hids, hsub.trans hprefix, hGB, hI5⟩
    · rw [if_neg hmem]
      apply ih (done ++ [sg]) hsplit'
      have hgoodsg : GoodR C k sg := by
        by_cases hsgC : sg.id ∈ C.map (·.id)
        · obtain ⟨c₀, hc₀, hcid⟩ := List.mem_map.mp hsgC
          have hCsplit : C = C.take k ++ C.drop k := (List.take_append_drop k C).symm
          rcases List.mem_append.mp (hCsplit ▸ hc₀) with hin | hin
          · exact absurd (hids ▸ (hcid ▸ List.mem_map_of_mem (·.id) hin)) hmem
          · intro c hc
            have hp := List.pairwise_append.mp (hCsplit ▸ hC)
            exact (hcons sg hsgS c₀ hc₀ hcid.symm) ▸ hp.2.2 c hc c₀ hin
        · intro c hc
          exact hnew sg hsgS hsgC c ((List.take_sublist _ _).subset hc)
      refine ⟨k, hk, hcached, hids,
        List.Sublist.append hsub (List.Sublist.refl _), ?_, ?_⟩
      · intro r hr
        rcases List.mem_append.mp hr with h | h
        · exact hGB r h
        · have : r = sg := by simpa using h
          exact Or.inl (this ▸ hgoodsg)
      · intro hle r hr
        rcases List.mem_append.mp hr with h | h
        · refine hI5 ?_ r h
          simp only [List.length_append, List.length_cons, List.length_nil] at hle
          push_cast at hle ⊢
          omega
        · have : r = sg := by simpa using h
          exact this ▸ hgoodsg

/-- The `.final` field of `star_stats`, written out. -/
theorem star_stats_final_char (c s : List StarRecord) (t : Nat) :
    (star_stats c s t).final =
      (if (starLoop t s ⟨c, c.map (·.id), [], false, 0⟩).cache_is_valid = false ∨
          (t : Int) -
            ((starLoop t s ⟨c, c.map (·.id), [], false, 0⟩).results.length : Int) <
            ((starLoop t s ⟨c, c.map (·.id), [], false, 0⟩).cached.length : Int)
        then ([] : List StarRecord)
        else (starLoop t s ⟨c, c.map (·.id), [], false, 0⟩).cached) ++
      (if (starLoop t s ⟨c, c.map (·.id), [], false, 0⟩).results ≠ [] then
        List.insertionSort tsLe (starLoop t s ⟨c, c.map (·.id), [], false, 0⟩).results
       else []) := by
  unfold star_stats
  by_cases h : (starLoop t s ⟨c, c.map (·.id), [], false, 0⟩).results = [] <;>
    simp [h]

/-- The `.written` field of `star_stats`: `some` of the final list iff
any record was collected. -/
theorem star_stats_written_char (c s : List StarRecord) (t : Nat) :
    (star_stats c s t).written =
      (if (starLoop t s ⟨c, c.map (·.id), [], false, 0⟩).results ≠ [] then
        some (star_stats c s t).final else none) := by
  unfold star_stats
  by_cases h : (starLoop t s ⟨c, c.map (·.id), [], false, 0⟩).results = [] <;>
    simp [h]

/-- Claim C8: after every cache write performed by either reconciler,
the persisted record list satisfies its order invariant.  Star half:
under the data-model invariants — cached list ascending by `starred_at`,
remote stream descending, ids shared between cache and stream carrying
equal timestamps, genuinely new stream ids starred no earlier than every
cached record, and `total_count` equal to the full stream length — every
written star list is sorted ascending by `starred_at`.  Issue half:
every written issue list is sorted ascending by `number`,
unconditionally (the code re-sorts before writing). -/
theorem c8_write_order_invariant :
    (∀ (C S : List StarRecord) (total : Nat),
      C.Pairwise tsLe →
      S.Pairwise (fun a b => b.starred_at ≤ a.starred_at) →
      (∀ s ∈ S, ∀ c ∈ C, s.id = c.id → s.starred_at = c.starred_at) →
      (∀ s ∈ S, s.id ∉ C.map (·.id) → ∀ c ∈ C, c.starred_at ≤ s.starred_at) →
      total = S.length →
      ∀ l, (star_stats C S total).written = some l → l.Pairwise tsLe) ∧
    (∀ (cached₀ remote : List IssueRecord),
      ∀ l, (issueMerge cached₀ remote).written = some l →
        l.Pairwise numberLe) := by
  constructor
  · intro C S total hC hS hcons hnew htot l hwrite
    obtain ⟨k, hk, hcached, hids, hsubS, hGB, hI5⟩ :=
      starLoop_inv8 C S total hC hS hcons hnew S [] (List.nil_append S).symm
        ⟨C, C.map (·.id), [], false, 0⟩
        ⟨C.length, le_refl _, (List.take_length C).symm, by rw [List.take_length],
          List.nil_sublist _, fun r hr => absurd hr (List.not_mem_nil r),
          fun _ r hr => absurd hr (List.not_mem_nil r)⟩
    rw [star_stats_written_char] at hwrite
    by_cases hres : (starLoop total S
        ⟨C, C.map (·.id), [], false, 0⟩).results = []
    · rw [if_neg (by simpa using hres)] at hwrite
      exact absurd hwrite (by simp)
    · rw [if_pos hres] at hwrite
      have hl : l = (star_stats C S total).final := (Option.some.inj hwrite).symm
      rw [hl, star_stats_final_char, if_pos hres]
      apply List.pairwise_append.mpr
      refine ⟨?_, List.sorted_insertionSort tsLe _, ?_⟩
      · split
        · exact List.Pairwise.nil
        · rw [hcached]
          exact hC.sublist (List.take_sublist _ _)
      · intro a ha b hb
        have hbres : b ∈ (starLoop total S
            ⟨C, C.map (·.id), [], false, 0⟩).results :=
          (List.perm_insertionSort tsLe _).subset hb
        split at ha
        · exact absurd ha (List.not_mem_nil a)
        · rename_i hguard
          push_neg at hguard
          have hle : (k : Int) ≤ (total : Int) -
              ((starLoop total S ⟨C, C.map (·.id), [], false, 0⟩).results.length : Int) := by
            have := hguard.2
            rw [hcached] at this
            rw [List.length_take, min_eq_left hk] at this
            omega
          rw [hcached] at ha
          exact hI5 hle b hbres a ha
  · intro cached₀ remote l hwrite
    simp only [issueMerge] at hwrite
    split at hwrite
    · have hl : l = List.insertionSort numberLe
          ((issueLoop ((cached₀.getLast?.map (·.number)).getD 0) remote cached₀ []).1 ++
            (issueLoop ((cached₀.getLast?.map (·.number)).getD 0) remote cached₀ []).2) :=
        (Option.some.inj hwrite).symm
      rw [hl]
      exact List.sorted_insertionSort numberLe _
    · exact absurd hwrite (by simp)

/-- Witness for claim C8's theorem at the concrete C1 scenario (star
half) and a two-record remote fetch (issue half). -/
theorem c8_witness :
    (∀ l, (star_stats [⟨1, 11⟩, ⟨2, 12⟩] [⟨3, 13⟩, ⟨2, 12⟩, ⟨1, 11⟩] 3).written =
        some l → l.Pairwise tsLe) ∧
    (∀ l, (issueMerge [] [⟨false, 5, none, 2, "open"⟩,
        ⟨false, 3, none, 1, "open"⟩]).written = some l → l.Pairwise numberLe) :=
  ⟨c8_write_order_invariant.1 [⟨1, 11⟩, ⟨2, 12⟩] [⟨3, 13⟩, ⟨2, 12⟩, ⟨1, 11⟩] 3
      (by decide) (by decide) (by decide) (by decide) (by decide),
    c8_write_order_invariant.2 [] [⟨false, 5, none, 2, "open"⟩,
      ⟨false, 3, none, 1, "open"⟩]⟩

/-- The loop invariant for the distinct-ids claim C10: the in-memory
cache is a prefix of the original cache (ids in lockstep), the results
form a subsequence of the consumed stream prefix, and whenever the cache
is not longer than the expected remaining count no collected result id
survives in the cache. -/
def Inv10 (C : List StarRecord) (total : Nat) (done : List StarRecord)
    (st : ReconState) : Prop :=
  ∃ k, k ≤ C.length ∧ st.cached = C.take k ∧
    st.existing_ids = (C.take k).map (·.id) ∧
    st.results.Sublist done ∧
    ((k : Int) ≤ (total : Int) - (st.results.length : Int) →
      ∀ r ∈ st.results, r.id ∉ (C.take k).map (·.id))

/-- The scan loop preserves the C10 invariant, given a strictly
descending remote stream consistent with the sorted, duplicate-free
cache. -/
theorem starLoop_inv10 (C S : List StarRecord) (total : Nat)
    (hC : C.Pairwise tsLe)
    (hCnd : (C.map (·.id)).Nodup)
    (hS : S.Pairwise (fun a b => b.starred_at < a.starred_at))
    (hcons : ∀ s ∈ S, ∀ c ∈ C, s.id = c.id → s.starred_at = c.starred_at) :
    ∀ (rest done : List StarRecord), S = done ++ rest →
      ∀ st : ReconState, Inv10 C total done st →
      Inv10 C total S (starLoop total rest st) := by
  intro rest
  induction rest with
  | nil =>
    intro done hsplit st hinv
    rw [List.append_nil] at hsplit
    subst hsplit
    simpa [starLoop] using hinv
  | cons sg rest' ih =>
    intro done hsplit st hinv
    obtain ⟨k, hk, hcached, hids, hsub, hI4⟩ := hinv
    have hprefix : done.Sublist S := hsplit ▸ List.sublist_append_left done _
    have hdesc : ∀ d ∈ done, sg.starred_at < d.starred_at := by
      have hp := List.pairwise_append.mp (hsplit ▸ hS)
      exact fun d hd => hp.2.2 d hd sg (List.mem_cons_self _ _)
    have hsgS : sg ∈ S := hsplit ▸ List.mem_append_right _ (List.mem_cons_self _ _)
    have hres_ts : ∀ r ∈ st.results, sg.starred_at < r.starred_at :=
      fun r hr => hdesc r (hsub.subset hr)
    have hresS : ∀ r ∈ st.results, r ∈ S :=
      fun r hr => hprefix.subset (hsub.subset hr)
    have hCk : (C.take k).Pairwise tsLe := hC.sublist (List.take_sublist _ _)
    have hsplit' : S = (done ++ [sg]) ++ rest' := by
      rw [List.append_assoc]
      exact hsplit
    simp only [starLoop]
    by_cases hmem : sg.id ∈ st.existing_ids
    · rw [if_pos hmem]
      by_cases hD : (total : Int) - (st.results.length : Int) <
          (st.cached.length : Int)
      · rw [if_pos hD]
        have hu' : sg.id ∈ (C.take k).map (·.id) := hids ▸ hmem
        have hexp' : (total : Int) - (st.results.length : Int) <
            ((C.take k).length : Int) := by
          rw [← hcached]
          exact hD
        obtain ⟨j, hj, fa, heq, hcase⟩ := trimLoop_spec (C.take k).length (C.take k)
          ((total : Int) - (st.results.length : Int)) sg.id (le_refl _) hu' hexp'
        have hjk : j ≤ k := le_of_lt (lt_of_lt_of_le hj (by
          rw [List.length_take]
          exact min_le_left _ _))
        have htt : (C.take k).take j = C.take j := by
          rw [List.take_take, min_eq_left hjk]
        rw [hcached, hids, heq]
        rcases hcase with ⟨hfa, hje, w, hw, hwid⟩ | ⟨hfa, hje, w, tail, hdrop, hwid⟩ |
          ⟨hfa, hje, hmem'⟩
        · -- found_all: no old result id can survive in the cache prefix
          subst hfa
          rw [if_pos rfl]
          rw [htt] at hw
          have hwC : w ∈ C :=
            (List.take_sublist _ _).subset (List.mem_of_getLast?_eq_some hw)
          have hwts : ∀ c ∈ C.take j, c.starred_at ≤ w.starred_at :=
            pairwise_le_getLast (hC.sublist (List.take_sublist _ _)) hw
          have hwsg : sg.starred_at = w.starred_at := hcons sg hsgS w hwC hwid.symm
          have hnone : ∀ r ∈ st.results, r.id ∉ (C.take j).map (·.id) := by
            intro r hr hin
            obtain ⟨c, hc, hcid⟩ := List.mem_map.mp hin
            have hcts : r.starred_at = c.starred_at :=
              (hcons r (hresS r hr) c ((List.take_sublist _ _).subset hc)
                hcid.symm).symm.symm
            have h1 : c.starred_at ≤ w.starred_at := hwts c hc
            have h2 : sg.starred_at < r.starred_at := hres_ts r hr
            have hcts' : r.starred_at = c.starred_at :=
              (hcons r (hresS r hr) c ((List.take_sublist _ _).subset hc)
                hcid.symm)
            omega
          exact ⟨j, hjk.trans hk, htt, by rw [htt], hsub.trans hprefix,
            fun _ => hnone⟩
        · -- boundary pop: the re-collected sg's id was just popped
          subst hfa
          rw [if_neg (by simp)]
          apply ih (done ++ [sg]) hsplit'
          have hsplit2 : C.take k = C.take j ++ w :: tail := by
            rw [← htt, ← hdrop, List.take_append_drop]
          have hwC : w ∈ C := (List.take_sublist k C).subset
            (by rw [hsplit2]; exact List.mem_append_right _ (List.mem_cons_self _ _))
          have hwts : ∀ c ∈ C.take j, c.starred_at ≤ w.starred_at := by
            have hp := List.pairwise_append.mp (hsplit2 ▸ hCk)
            exact fun c hc => hp.2.2 c hc w (List.mem_cons_self _ _)
          have hwsg : sg.starred_at = w.starred_at := hcons sg hsgS w hwC hwid.symm
          have hndk : ((C.take k).map (·.id)).Nodup :=
            hCnd.sublist ((List.take_sublist _ _).map _)
          have hsgnot : sg.id ∉ (C.take j).map (·.id) := by
            intro hin
            have : ((C.take j).map (·.id) ++ w.id :: tail.map (·.id)).Nodup := by
              have := hsplit2 ▸ hndk
              simpa using this
            have hdisj := List.disjoint_of_nodup_append this
            exact hdisj hin (hwid ▸ List.mem_cons_self _ _)
          have hnone : ∀ r ∈ st.results ++ [sg], r.id ∉ (C.take j).map (·.id) := by
            intro r hr hin
            rcases List.mem_append.mp hr with h | h
            · obtain ⟨c, hc, hcid⟩ := List.mem_map.mp hin
              have hcts : r.starred_at = c.starred_at :=
                hcons r (hresS r h) c ((List.take_sublist _ _).subset hc) hcid.symm
              have h1 : c.starred_at ≤ w.starred_at := hwts c hc
              have h2 : sg.starred_at < r.starred_at := hres_ts r h
              omega
            · have : r = sg := by simpa using h
              rw [this] at hin
              exact hsgnot hin
          exact ⟨j, hjk.trans hk, htt, by rw [htt],
            List.Sublist.append hsub (List.Sublist.refl _), fun _ => hnone⟩
        · -- plain exit: the deficit is 1, the guard bound fails
          subst hfa
          rw [if_neg (by simp)]
          apply ih (done ++ [sg]) hsplit'
          refine ⟨j, hjk.trans hk, htt, by rw [htt],
            List.Sublist.append hsub (List.Sublist.refl _), ?_⟩
          intro hle
          exfalso
          simp only [List.length_append, List.length_cons, List.length_nil] at hle
          push_cast at hle hje
          omega
      · rw [if_neg hD]
        exact ⟨k, hk, hcached, hids, hsub.trans hprefix, hI4⟩
    · rw [if_neg hmem]
      apply ih (done ++ [sg]) hsplit'
      refine ⟨k, hk, hcached, hids,
        List.Sublist.append hsub (List.Sublist.refl _), ?_⟩
      intro hle r hr
      rcases List.mem_append.mp hr with h | h
      · refine hI4 ?_ r h
        simp only [List.length_append, List.length_cons, List.length_nil] at hle
        push_cast at hle ⊢
        omega
      · have : r = sg := by simpa using h
        rw [this]
        exact hids ▸ hmem

/-- Claim C10 counterexample: with only distinctness of the cached ids
and of the remote ids (but timestamps inconsistent between cache and
stream), the merge CAN duplicate a record.  Cache
`[(1,1), (2,2), (3,3), (4,4), (5,5)]`, stream `[(10,2), (9,3)]`,
`total_count = 4`: the first scanned record (id 2) pops one cached
record, falls through the trim loop and is re-collected while its cached
copy survives; the second (id 3) stops the scan via `found_all` with the
lengths agreeing, so the cache is not cleared — the merged list is
`[(1,1), (2,2), (3,3), (10,2)]`, with id 2 twice. -/
theorem c10_counterexample :
    ((([⟨1, 1⟩, ⟨2, 2⟩, ⟨3, 3⟩, ⟨4, 4⟩, ⟨5, 5⟩] : List StarRecord)).map
        (·.id)).Nodup ∧
    ((([⟨10, 2⟩, ⟨9, 3⟩] : List StarRecord)).map (·.id)).Nodup ∧
    (star_stats [⟨1, 1⟩, ⟨2, 2⟩, ⟨3, 3⟩, ⟨4, 4⟩, ⟨5, 5⟩]
        [⟨10, 2⟩, ⟨9, 3⟩] 4).final = [⟨1, 1⟩, ⟨2, 2⟩, ⟨3, 3⟩, ⟨10, 2⟩] ∧
    ¬ (((star_stats [⟨1, 1⟩, ⟨2, 2⟩, ⟨3, 3⟩, ⟨4, 4⟩, ⟨5, 5⟩]
        [⟨10, 2⟩, ⟨9, 3⟩] 4).final.map (·.id)).Nodup) := by
  decide

/-- Claim C10 as amended: if, in addition to the pairwise-distinct ids
on both sides, the cached list is ascending by `starred_at`, the remote
stream is strictly descending by `starred_at`, and every id shared
between stream and cache carries the same timestamp on both sides, then
the merged result list has pairwise-distinct user ids — no record is
duplicated by the merge, including a boundary record popped from the
cache during removal trimming and re-collected from the stream. -/
theorem c10_distinct_ids (C S : List StarRecord) (total : Nat)
    (hC : C.Pairwise tsLe) (hCnd : (C.map (·.id)).Nodup)
    (hS : S.Pairwise (fun a b => b.starred_at < a.starred_at))
    (hSnd : (S.map (·.id)).Nodup)
    (hcons : ∀ s ∈ S, ∀ c ∈ C, s.id = c.id → s.starred_at = c.starred_at) :
    ((star_stats C S total).final.map (·.id)).Nodup := by
  obtain ⟨k, hk, hcached, hids, hsubS, hI4⟩ :=
    starLoop_inv10 C S total hC hCnd hS hcons S [] (List.nil_append S).symm
      ⟨C, C.map (·.id), [], false, 0⟩
      ⟨C.length, le_refl _, (List.take_length C).symm, by rw [List.take_length],
        List.nil_sublist _, fun _ r hr => absurd hr (List.not_mem_nil r)⟩
  rw [star_stats_final_char]
  have hresnd : ((starLoop total S
      ⟨C, C.map (·.id), [], false, 0⟩).results.map (·.id)).Nodup :=
    hSnd.sublist (hsubS.map _)
  have hsortnd : ((List.insertionSort tsLe (starLoop total S
      ⟨C, C.map (·.id), [], false, 0⟩).results).map (·.id)).Nodup := by
    have hperm := (List.perm_insertionSort tsLe (starLoop total S
      ⟨C, C.map (·.id), [], false, 0⟩).results).map (·.id)
    exact hperm.nodup_iff.mpr hresnd
  have hknd : ((C.take k).map (·.id)).Nodup :=
    hCnd.sublist ((List.take_sublist _ _).map _)
  by_cases hres : (starLoop total S ⟨C, C.map (·.id), [], false, 0⟩).results ≠ []
  · rw [if_pos hres]
    split
    · simpa using hsortnd
    · rename_i hguard
      push_neg at hguard
      rw [hcached, List.map_append]
      apply List.Nodup.append hknd hsortnd
      intro a ha hb
      obtain ⟨r, hr, hrid⟩ := List.mem_map.mp hb
      have hrres : r ∈ (starLoop total S
          ⟨C, C.map (·.id), [], false, 0⟩).results :=
        (List.perm_insertionSort tsLe _).subset hr
      have hle : (k : Int) ≤ (total : Int) - ((starLoop total S
          ⟨C, C.map (·.id), [], false, 0⟩).results.length : Int) := by
        have := hguard.2
        rw [hcached, List.length_take, min_eq_left hk] at this
        omega
      exact hI4 hle r hrres (hrid ▸ ha)
  · rw [if_neg hres, List.append_nil]
    split
    · simp
    · rw [hcached]
      exact hknd

/-- Witness for claim C10's theorem at the concrete C1 scenario. -/
theorem c10_witness :
    ((star_stats [⟨1, 11⟩, ⟨2, 12⟩] [⟨3, 13⟩, ⟨2, 12⟩, ⟨1, 11⟩] 3).final.map
      (·.id)).Nodup :=
  c10_distinct_ids [⟨1, 11⟩, ⟨2, 12⟩] [⟨3, 13⟩, ⟨2, 12⟩, ⟨1, 11⟩] 3
    (by decide) (by decide) (by decide) (by decide) (by decide)

end GhStats
